import Mathlib

/-!
Verification of the PubMedP4 ingestion-to-retrieval pipeline.

Shallow embedding of the core pipeline functions:
 - text normalization and chunking (pipeline/core/chunker.py),
 - metadata resolution (pipeline/utils/metadata_lookup.py),
 - embedding staleness tracking and purging (pipeline/core/embed_chunks.py),
 - index freshness checking (pipeline/core/index_builder.py),
 - retrieval and query logging (pipeline/core/retriever.py).

Strings are modelled as lists of characters; database tables as lists of
rows; SHA-256 digests as an abstract hash parameter applied to the hashed
text; rational numbers stand in for Python floats (the step and score
formulas are evaluated in exact arithmetic).
-/

namespace PubMed

/-- Whitespace recognized by the Python regular expression class backslash-s
and by str.isspace, restricted to the code points the two agree on: the
ASCII whitespace and separator controls plus the Unicode space characters. -/
def isPySpace (c : Char) : Bool :=
  [9, 10, 11, 12, 13, 28, 29, 30, 31, 32, 133, 160, 5760,
    8232, 8233, 8239, 8287, 12288].contains c.toNat
  || (8192 ≤ c.toNat && c.toNat ≤ 8202)

/-- Model of raw_text.encode("ascii", "ignore").decode("ascii"): drop every
character outside the ASCII range. -/
def asciiDrop (l : List Char) : List Char :=
  l.filter (fun c => c.toNat ≤ 127)

/-- Model of re.sub applied with pattern backslash-s-plus and replacement
" ": each maximal whitespace run becomes a single space. The Bool flag
records whether the previous character was inside a whitespace run. -/
def collapseWSAux : Bool → List Char → List Char
  | _, [] => []
  | inRun, c :: rest =>
    if isPySpace c then
      if inRun then collapseWSAux true rest
      else ' ' :: collapseWSAux true rest
    else c :: collapseWSAux false rest

/-- Collapse every whitespace run to a single space. -/
def collapseWS (l : List Char) : List Char := collapseWSAux false l

/-- Model of str.strip: remove leading and trailing whitespace. -/
def stripWS (l : List Char) : List Char :=
  List.rdropWhile isPySpace (l.dropWhile isPySpace)

/-- normalize_text from pipeline/core/chunker.py: drop non-ASCII characters,
collapse whitespace runs to a single space, strip both ends. -/
def normalize_text (l : List Char) : List Char :=
  stripWS (collapseWS (asciiDrop l))

example : normalize_text "  a   b \t c  ".toList = "a b c".toList := by decide

/-- The adjacency relation used to say that a list has no whitespace run of
length two or more: no two neighbouring characters are both whitespace. -/
def NoTwoSpaces (l : List Char) : Prop :=
  List.Chain' (fun a b => ¬(isPySpace a = true ∧ isPySpace b = true)) l

lemma mem_collapseWSAux {c : Char} :
    ∀ (b : Bool) (l : List Char), c ∈ collapseWSAux b l → c ∈ l ∨ c = ' ' := by
  intro b l
  induction l generalizing b with
  | nil => simp [collapseWSAux]
  | cons x rest ih =>
    intro hmem
    cases hx : isPySpace x with
    | true =>
      cases b with
      | true =>
        simp only [collapseWSAux, hx, if_true] at hmem
        rcases ih true hmem with h | h
        · exact Or.inl (List.mem_cons_of_mem _ h)
        · exact Or.inr h
      | false =>
        simp only [collapseWSAux, hx, if_true, Bool.false_eq_true, if_false,
          List.mem_cons] at hmem
        rcases hmem with h | h
        · exact Or.inr h
        · rcases ih true h with h2 | h2
          · exact Or.inl (List.mem_cons_of_mem _ h2)
          · exact Or.inr h2
    | false =>
      simp only [collapseWSAux, hx, Bool.false_eq_true, if_false, List.mem_cons] at hmem
      rcases hmem with h | h
      · exact Or.inl (by simp [h])
      · rcases ih false h with h2 | h2
        · exact Or.inl (List.mem_cons_of_mem _ h2)
        · exact Or.inr h2

lemma collapseWSAux_space_is_blank {c : Char} :
    ∀ (b : Bool) (l : List Char), c ∈ collapseWSAux b l → isPySpace c = true → c = ' ' := by
  intro b l
  induction l generalizing b with
  | nil => simp [collapseWSAux]
  | cons x rest ih =>
    intro hmem hsp
    cases hx : isPySpace x with
    | true =>
      cases b with
      | true =>
        simp only [collapseWSAux, hx, if_true] at hmem
        exact ih true hmem hsp
      | false =>
        simp only [collapseWSAux, hx, if_true, Bool.false_eq_true, if_false,
          List.mem_cons] at hmem
        rcases hmem with h | h
        · exact h
        · exact ih true h hsp
    | false =>
      simp only [collapseWSAux, hx, Bool.false_eq_true, if_false, List.mem_cons] at hmem
      rcases hmem with h | h
      · rw [h] at hsp; rw [hsp] at hx; exact absurd hx (by simp)
      · exact ih false h hsp

lemma collapseWSAux_true_head {c : Char} :
    ∀ (l : List Char), (collapseWSAux true l).head? = some c → isPySpace c = false := by
  intro l
  induction l with
  | nil => simp [collapseWSAux]
  | cons x rest ih =>
    intro h
    cases hx : isPySpace x with
    | true =>
      simp only [collapseWSAux, hx, if_true] at h
      exact ih h
    | false =>
      simp only [collapseWSAux, hx, Bool.false_eq_true, if_false, List.head?_cons,
        Option.some.injEq] at h
      rw [← h]
      exact hx

lemma chain'_collapseWSAux :
    ∀ (l : List Char) (b : Bool), NoTwoSpaces (collapseWSAux b l) := by
  intro l
  induction l with
  | nil => intro b; simp [collapseWSAux, NoTwoSpaces]
  | cons x rest ih =>
    intro b
    cases hx : isPySpace x with
    | true =>
      cases b with
      | true =>
        simp only [collapseWSAux, hx, if_true]
        exact ih true
      | false =>
        simp only [collapseWSAux, hx, if_true, Bool.false_eq_true, if_false]
        rw [NoTwoSpaces, List.chain'_cons']
        refine ⟨?_, ih true⟩
        intro y hy hcon
        have := collapseWSAux_true_head rest hy
        rw [this] at hcon
        exact Bool.false_ne_true hcon.2
    | false =>
      simp only [collapseWSAux, hx, Bool.false_eq_true, if_false]
      rw [NoTwoSpaces, List.chain'_cons']
      refine ⟨?_, ih false⟩
      intro y _ hcon
      rw [hx] at hcon
      exact Bool.false_ne_true hcon.1

lemma head?_dropWhile_false {p : Char → Bool} {c : Char} :
    ∀ (l : List Char), (l.dropWhile p).head? = some c → p c = false := by
  intro l
  induction l with
  | nil => simp
  | cons x rest ih =>
    intro h
    rw [List.dropWhile_cons] at h
    cases hx : p x with
    | true =>
      simp only [hx, if_true] at h
      exact ih h
    | false =>
      simp only [hx, Bool.false_eq_true, if_false, List.head?_cons,
        Option.some.injEq] at h
      rw [← h]
      exact hx

lemma stripWS_sublist (l : List Char) : List.Sublist (stripWS l) l := by
  have h1 : stripWS l <+: l.dropWhile isPySpace := List.rdropWhile_prefix _ _
  have h2 : l.dropWhile isPySpace <:+ l := List.dropWhile_suffix _
  exact List.Sublist.trans (List.IsPrefix.sublist h1) (List.IsSuffix.sublist h2)

lemma stripWS_head {c : Char} (l : List Char)
    (h : (stripWS l).head? = some c) : isPySpace c = false := by
  have hpre : stripWS l <+: l.dropWhile isPySpace := List.rdropWhile_prefix _ _
  obtain ⟨t, ht⟩ := hpre
  apply head?_dropWhile_false (p := isPySpace) l
  rw [← ht]
  cases hs : stripWS l with
  | nil => rw [hs] at h; exact absurd h (by simp)
  | cons a s =>
    rw [hs] at h
    simp only [List.head?_cons, Option.some.injEq] at h
    simp [h]

lemma stripWS_getLast {c : Char} (l : List Char)
    (h : (stripWS l).getLast? = some c) : isPySpace c = false := by
  have hne : stripWS l ≠ [] := by
    intro hnil; rw [hnil] at h; exact absurd h (by simp)
  have hlast := List.rdropWhile_last_not (p := isPySpace) (l := l.dropWhile isPySpace) hne
  rw [List.getLast?_eq_getLast _ hne] at h
  have hc : (stripWS l).getLast hne = c := by injection h
  rw [← hc]
  simpa using hlast

lemma chain'_stripWS {l : List Char} (h : NoTwoSpaces l) : NoTwoSpaces (stripWS l) := by
  have h1 : NoTwoSpaces (l.dropWhile isPySpace) :=
    List.Chain'.suffix h (List.dropWhile_suffix _)
  exact List.Chain'.prefix h1 (List.rdropWhile_prefix _ _)

lemma mem_stripWS {c : Char} {l : List Char} (h : c ∈ stripWS l) : c ∈ l :=
  List.Sublist.mem h (stripWS_sublist l)

lemma normalize_text_mem {c : Char} {s : List Char} (h : c ∈ normalize_text s) :
    c.toNat ≤ 127 := by
  have h1 : c ∈ collapseWS (asciiDrop s) := mem_stripWS h
  rcases mem_collapseWSAux false (asciiDrop s) h1 with h2 | h2
  · have := (List.mem_filter.mp h2).2
    simpa using this
  · rw [h2]; decide

lemma normalize_text_space_is_blank {c : Char} {s : List Char}
    (hmem : c ∈ normalize_text s) (hsp : isPySpace c = true) : c = ' ' := by
  have h1 : c ∈ collapseWS (asciiDrop s) := mem_stripWS hmem
  exact collapseWSAux_space_is_blank false (asciiDrop s) h1 hsp

lemma normalize_text_chain' (s : List Char) : NoTwoSpaces (normalize_text s) :=
  chain'_stripWS (chain'_collapseWSAux (asciiDrop s) false)

lemma normalize_text_head {c : Char} {s : List Char}
    (h : (normalize_text s).head? = some c) : isPySpace c = false :=
  stripWS_head _ h

lemma normalize_text_getLast {c : Char} {s : List Char}
    (h : (normalize_text s).getLast? = some c) : isPySpace c = false :=
  stripWS_getLast _ h

lemma asciiDrop_eq_self {l : List Char} (h : ∀ c ∈ l, c.toNat ≤ 127) :
    asciiDrop l = l :=
  List.filter_eq_self.mpr (fun a ha => by simpa using h a ha)

lemma collapseWSAux_true_eq_false {l : List Char}
    (h : ∀ c, l.head? = some c → isPySpace c = false) :
    collapseWSAux true l = collapseWSAux false l := by
  cases l with
  | nil => rfl
  | cons x rest =>
    have hx := h x rfl
    simp [collapseWSAux, hx]

lemma collapseWS_eq_self :
    ∀ l : List Char, (∀ c ∈ l, isPySpace c = true → c = ' ') → NoTwoSpaces l →
      collapseWSAux false l = l := by
  intro l
  induction l with
  | nil => intro _ _; rfl
  | cons x rest ih =>
    intro hsp hch
    rw [NoTwoSpaces, List.chain'_cons'] at hch
    have ihr := ih (fun c hc h2 => hsp c (List.mem_cons_of_mem _ hc) h2) hch.2
    cases hx : isPySpace x with
    | true =>
      have hx' : x = ' ' := hsp x (List.mem_cons_self x rest) hx
      have hhead : ∀ c, rest.head? = some c → isPySpace c = false := by
        intro c hc
        cases hcs : isPySpace c with
        | false => rfl
        | true => exact absurd ⟨hx, hcs⟩ (hch.1 c (Option.mem_def.mpr hc))
      simp only [collapseWSAux, hx, if_true, Bool.false_eq_true, if_false]
      rw [collapseWSAux_true_eq_false hhead, ihr, hx']
    | false =>
      simp only [collapseWSAux, hx, Bool.false_eq_true, if_false]
      rw [ihr]

lemma stripWS_eq_self {l : List Char}
    (hhead : ∀ c, l.head? = some c → isPySpace c = false)
    (hlast : ∀ c, l.getLast? = some c → isPySpace c = false) : stripWS l = l := by
  have h1 : l.dropWhile isPySpace = l := by
    cases l with
    | nil => rfl
    | cons x rest =>
      rw [List.dropWhile_cons]
      have := hhead x rfl
      simp [this]
  rw [stripWS, h1, List.rdropWhile_eq_self_iff]
  intro hl
  have := hlast (l.getLast hl) (List.getLast?_eq_getLast l hl)
  simp [this]

/-- C8: for every input string, the output of normalize_text contains no
character outside the ASCII range, has no two adjacent whitespace
characters (so no whitespace run of length two or more survives), and has
no leading or trailing whitespace. -/
theorem C8_normalize_output_shape (s : List Char) :
    (∀ c ∈ normalize_text s, c.toNat ≤ 127) ∧
    NoTwoSpaces (normalize_text s) ∧
    (∀ c, (normalize_text s).head? = some c → isPySpace c = false) ∧
    (∀ c, (normalize_text s).getLast? = some c → isPySpace c = false) :=
  ⟨fun _ hc => normalize_text_mem hc,
   normalize_text_chain' s,
   fun _ hc => normalize_text_head hc,
   fun _ hc => normalize_text_getLast hc⟩

/-- Witness for C8 at the concrete input "  ab \t cd " (normalizing to
"ab cd"): the head and last characters of the output are not whitespace
and an output character is ASCII. -/
theorem C8_normalize_output_shape_witness :
    'a'.toNat ≤ 127 ∧ isPySpace 'a' = false ∧ isPySpace 'd' = false :=
  ⟨(C8_normalize_output_shape "  ab \t cd ".toList).1 'a' (by decide),
   (C8_normalize_output_shape "  ab \t cd ".toList).2.2.1 'a' (by decide),
   (C8_normalize_output_shape "  ab \t cd ".toList).2.2.2 'd' (by decide)⟩

/-- C7: normalize_text is idempotent. -/
theorem C7_normalize_idempotent (s : List Char) :
    normalize_text (normalize_text s) = normalize_text s := by
  have hmem : ∀ c ∈ normalize_text s, c.toNat ≤ 127 :=
    fun _ hc => normalize_text_mem hc
  have hsp : ∀ c ∈ normalize_text s, isPySpace c = true → c = ' ' :=
    fun _ hc => normalize_text_space_is_blank hc
  have hch : NoTwoSpaces (normalize_text s) := normalize_text_chain' s
  show stripWS (collapseWS (asciiDrop (normalize_text s))) = normalize_text s
  rw [asciiDrop_eq_self hmem]
  have hcoll : collapseWS (normalize_text s) = normalize_text s :=
    collapseWS_eq_self _ hsp hch
  rw [hcoll]
  exact stripWS_eq_self (fun _ hc => normalize_text_head hc)
    (fun _ hc => normalize_text_getLast hc)

/-! Chunking (pipeline/core/chunker.py, chunk_text). -/

/-- A text chunk as produced by chunk_text. The content hash is the SHA-256
hex digest of the chunk text, modelled as an abstract hash function applied
to the text. -/
structure Chunk where
  pmid : ℤ
  chunk_index : ℕ
  text : List Char
  start_offset : ℕ
  end_offset : ℕ
  content_hash : String
deriving DecidableEq

/-- Model of re.finditer over the pattern backslash-S-plus: the maximal
nonwhitespace runs of the text, each paired with its starting character
position. The match start is the first component; the match end is the
start plus the token length. The accumulator cur holds the reversed
characters of the token currently being scanned and st its start. -/
def tokenSpansAux : List Char → ℕ → List Char → ℕ → List (ℕ × List Char)
  | [], _, [], _ => []
  | [], _, cur, st => [(st, cur.reverse)]
  | c :: rest, pos, cur, st =>
    if isPySpace c then
      if cur = [] then tokenSpansAux rest (pos + 1) [] 0
      else (st, cur.reverse) :: tokenSpansAux rest (pos + 1) [] 0
    else
      if cur = [] then tokenSpansAux rest (pos + 1) [c] pos
      else tokenSpansAux rest (pos + 1) (c :: cur) st

/-- _get_token_spans from chunker.py: every whitespace-delimited token of
the text together with its character span. -/
def tokenSpans (l : List Char) : List (ℕ × List Char) := tokenSpansAux l 0 [] 0

example : tokenSpans "a bc  d".toList = [(0, ['a']), (2, ['b', 'c']), (6, ['d'])] := by
  decide

/-- Model of the Python int() conversion applied to a float expression:
truncation toward zero, evaluated in exact rational arithmetic. -/
def ratTrunc (q : ℚ) : ℤ := if 0 ≤ q then ⌊q⌋ else -⌊-q⌋

/-- step = max(1, int(chunk_size * (1 - overlap_ratio))) from chunk_text. -/
def chunkStep (chunk_size : ℕ) (overlap_ratio : ℚ) : ℕ :=
  max 1 (ratTrunc ((chunk_size : ℚ) * (1 - overlap_ratio))).toNat

/-- Model of range(0, n, step) for step ≥ 1: the multiples of step below n,
in increasing order. -/
def pyRange (n step : ℕ) : List ℕ :=
  (List.range ((n + step - 1) / step)).map (fun j => j * step)

/-- build_chunk from chunk_text: the window of up to chunk_size tokens
starting at token index start_index; None when the window is empty. The
out-of-range span accesses return none, which cannot occur for the start
indices the loop produces. -/
def buildChunk (hash : List Char → String) (pmid : ℤ)
    (spans : List (ℕ × List Char)) (tokens : List (List Char))
    (chunk_size start_index chunk_index : ℕ) : Option Chunk :=
  let window := (tokens.drop start_index).take chunk_size
  if window = [] then none
  else
    match spans[start_index]?, spans[start_index + window.length - 1]? with
    | some sp0, some sp1 =>
      let t := List.intercalate [' '] window
      some { pmid := pmid, chunk_index := chunk_index, text := t,
             start_offset := sp0.1, end_offset := sp1.1 + sp1.2.length,
             content_hash := hash t }
    | _, _ => none

/-- chunk_text from chunker.py: tokenize, compute the step, and build one
chunk per window start produced by range(0, len(tokens), step), skipping
the (never occurring) empty windows. -/
def chunk_text (hash : List Char → String) (pmid : ℤ) (text : List Char)
    (chunk_size : ℕ) (overlap_ratio : ℚ) : List Chunk :=
  let spans := tokenSpans text
  if spans = [] then []
  else
    let tokens := spans.map Prod.snd
    let step := chunkStep chunk_size overlap_ratio
    (pyRange tokens.length step).enum.filterMap
      (fun p => buildChunk hash pmid spans tokens chunk_size p.2 p.1)

/-- The chunk the specification describes for the window of ordinal j:
window j covers up to chunk_size tokens starting at token index j * step;
its text is the window rejoined with single spaces, its offsets are the
character span of the first and last window token, and its content hash is
the hash of its text. -/
def chunkAt (hash : List Char → String) (pmid : ℤ)
    (spans : List (ℕ × List Char)) (chunk_size step j : ℕ) : Chunk :=
  let tokens := spans.map Prod.snd
  let window := (tokens.drop (j * step)).take chunk_size
  let t := List.intercalate [' '] window
  let first := (spans[j * step]?).getD (0, [])
  let last := (spans[j * step + window.length - 1]?).getD (0, [])
  { pmid := pmid, chunk_index := j, text := t,
    start_offset := first.1, end_offset := last.1 + last.2.length,
    content_hash := hash t }

lemma zip_self {α : Type} : ∀ l : List α, l.zip l = l.map (fun a => (a, a)) := by
  intro l
  induction l with
  | nil => rfl
  | cons x rest ih => simp [List.zip_cons_cons, ih]

lemma enum_range (W : ℕ) : (List.range W).enum = (List.range W).map (fun i => (i, i)) := by
  rw [List.enum_eq_zip_range, List.length_range, zip_self]

lemma filterMap_eq_map_of_forall {α β : Type} {g : α → Option β} {f : α → β} :
    ∀ l : List α, (∀ x ∈ l, g x = some (f x)) → l.filterMap g = l.map f := by
  intro l
  induction l with
  | nil => intro _; rfl
  | cons x rest ih =>
    intro h
    rw [List.filterMap_cons, h x (List.mem_cons_self x rest), List.map_cons,
      ih (fun y hy => h y (List.mem_cons_of_mem _ hy))]

lemma pyRange_mem_lt {n step j : ℕ} (hstep : 1 ≤ step) (_hn : 1 ≤ n)
    (hj : j < (n + step - 1) / step) : j * step < n := by
  have h1 : j + 1 ≤ (n + step - 1) / step := hj
  have h2 : (j + 1) * step ≤ n + step - 1 := by
    have := Nat.le_div_iff_mul_le (k := step) (by omega) |>.mp h1
    omega
  have h3 : j * step + step ≤ n + step - 1 := by
    calc j * step + step = (j + 1) * step := by ring
    _ ≤ n + step - 1 := h2
  omega

lemma buildChunk_eq_chunkAt (hash : List Char → String) (pmid : ℤ)
    (spans : List (ℕ × List Char)) (chunk_size step j : ℕ)
    (hcs : 1 ≤ chunk_size) (hj : j * step < spans.length) :
    buildChunk hash pmid spans (spans.map Prod.snd) chunk_size (j * step) j =
      some (chunkAt hash pmid spans chunk_size step j) := by
  have hlen : (spans.map Prod.snd).length = spans.length := List.length_map _ _
  have hwlen : (((spans.map Prod.snd).drop (j * step)).take chunk_size).length =
      min chunk_size (spans.length - j * step) := by
    rw [List.length_take, List.length_drop, hlen]
  have hwpos : 0 < (((spans.map Prod.snd).drop (j * step)).take chunk_size).length := by
    rw [hwlen]; omega
  have hwne : ((spans.map Prod.snd).drop (j * step)).take chunk_size ≠ [] :=
    List.ne_nil_of_length_pos hwpos
  have hend : j * step + (((spans.map Prod.snd).drop (j * step)).take chunk_size).length
      - 1 < spans.length := by
    rw [hwlen]; omega
  rw [buildChunk, chunkAt]
  simp only [hwne, if_false, List.getElem?_eq_getElem hj, List.getElem?_eq_getElem hend,
    Option.getD_some]

/-- C1: chunk_text computes step = max(1, floor(chunk_size * (1 -
overlap_ratio))) and, for chunk_size ≥ 1, overlap_ratio in the interval
from 0 inclusive to 1 exclusive, and a text with at least one token,
returns exactly one chunk per window start 0, step, 2 * step, ... below the
token count, the chunk of ordinal j being the one the specification
describes (chunkAt); in particular chunking "a b c d e f" with chunk_size 3
and overlap_ratio 0 yields exactly the two chunks "a b c" and "d e f" with
chunk indices 0 and 1, which share no token. -/
theorem C1_chunk_text_correct :
    (∀ (hash : List Char → String) (pmid : ℤ) (text : List Char)
      (chunk_size : ℕ) (overlap_ratio : ℚ),
      1 ≤ chunk_size → 0 ≤ overlap_ratio → overlap_ratio < 1 →
      tokenSpans text ≠ [] →
      chunk_text hash pmid text chunk_size overlap_ratio =
        (List.range (((tokenSpans text).length +
            max 1 (⌊(chunk_size : ℚ) * (1 - overlap_ratio)⌋).toNat - 1) /
            max 1 (⌊(chunk_size : ℚ) * (1 - overlap_ratio)⌋).toNat)).map
          (chunkAt hash pmid (tokenSpans text) chunk_size
            (max 1 (⌊(chunk_size : ℚ) * (1 - overlap_ratio)⌋).toNat))) ∧
    (∀ hash : List Char → String,
      (chunk_text hash 1 "a b c d e f".toList 3 0).map
          (fun c => (c.chunk_index, c.text)) =
        [(0, "a b c".toList), (1, "d e f".toList)] ∧
      ((tokenSpans "a b c".toList).map Prod.snd).inter
          ((tokenSpans "d e f".toList).map Prod.snd) = []) := by
  constructor
  · intro hash pmid text chunk_size overlap_ratio hcs hr0 hr1 hne
    have hq : (0 : ℚ) ≤ (chunk_size : ℚ) * (1 - overlap_ratio) :=
      mul_nonneg (Nat.cast_nonneg _) (by linarith)
    have hstep : chunkStep chunk_size overlap_ratio =
        max 1 (⌊(chunk_size : ℚ) * (1 - overlap_ratio)⌋).toNat := by
      rw [chunkStep, ratTrunc, if_pos hq]
    set step := max 1 (⌊(chunk_size : ℚ) * (1 - overlap_ratio)⌋).toNat with hstepdef
    have hstep1 : 1 ≤ step := le_max_left _ _
    have hn : 1 ≤ (tokenSpans text).length :=
      List.length_pos.mpr hne
    rw [chunk_text]
    simp only [hne, if_false, hstep]
    rw [pyRange, List.enum_map, enum_range, List.map_map, List.length_map,
      List.filterMap_map]
    apply filterMap_eq_map_of_forall
    intro x hx
    simp only [List.mem_range] at hx
    simp only [Function.comp_apply, Prod.map_apply, id_eq]
    exact buildChunk_eq_chunkAt hash pmid (tokenSpans text) chunk_size step x hcs
      (pyRange_mem_lt hstep1 hn hx)
  · intro hash
    constructor
    · have hstep : chunkStep 3 0 = 3 := by
        rw [chunkStep, ratTrunc]
        norm_num
        decide
      rw [chunk_text]
      simp only [hstep]
      rfl
    · decide

/-- Witness for C1: the universal part applied at a concrete hash, pmid,
text, chunk size and overlap ratio. -/
theorem C1_chunk_text_correct_witness :
    chunk_text (fun _ => "h") 7 "x y z".toList 2 0 =
      (List.range (((tokenSpans "x y z".toList).length +
          max 1 (⌊(2 : ℚ) * (1 - 0)⌋).toNat - 1) /
          max 1 (⌊(2 : ℚ) * (1 - 0)⌋).toNat)).map
        (chunkAt (fun _ => "h") 7 (tokenSpans "x y z".toList) 2
          (max 1 (⌊(2 : ℚ) * (1 - 0)⌋).toNat)) :=
  C1_chunk_text_correct.1 (fun _ => "h") 7 "x y z".toList 2 0
    (by decide) (le_refl 0) zero_lt_one (by decide)

/-! Metadata resolution (pipeline/utils/metadata_lookup.py). -/

/-- ArticleMetadata from pipeline/utils/metadata_parser.py, restricted to
the fields the resolver consults (pmid, title, doi); the other
bibliographic fields play no role in resolution. -/
structure ArticleMetadata where
  pmid : ℤ
  title : List Char
  doi : Option (List Char)
deriving DecidableEq

/-- ASCII model of str.lower, applied character by character. -/
def pyLowerChar (c : Char) : Char :=
  if 'A' ≤ c ∧ c ≤ 'Z' then Char.ofNat (c.toNat + 32) else c

/-- Lowercase a string. -/
def pyLower (l : List Char) : List Char := l.map pyLowerChar

/-- _normalize_for_match: lowercase, then keep only the characters a-z and
0-9. -/
def normalizeForMatch (l : List Char) : List Char :=
  (pyLower l).filter (fun c => ('a' ≤ c && c ≤ 'z') || ('0' ≤ c && c ≤ '9'))

/-- Model of str.find: the position of the first occurrence of pat in the
text, none when pat does not occur. -/
def firstOccur (pat : List Char) : List Char → Option ℕ
  | [] => if pat.isPrefixOf ([] : List Char) then some 0 else none
  | c :: rest =>
    if pat.isPrefixOf (c :: rest) then some 0
    else (firstOccur pat rest).map (fun i => i + 1)

/-- Model of the Python substring test pat in s. -/
def containsSub (pat s : List Char) : Bool := (firstOccur pat s).isSome

/-- Model of Python dict insertion: assigning an existing key updates its
value in place, keeping the key position; a new key is appended. -/
def dictInsert (k : List Char) (v : ArticleMetadata) :
    List (List Char × ArticleMetadata) → List (List Char × ArticleMetadata)
  | [] => [(k, v)]
  | (k0, v0) :: rest =>
    if k0 = k then (k0, v) :: rest else (k0, v0) :: dictInsert k v rest

/-- Model of a Python dict comprehension: insert the pairs in order. -/
def dictOfPairs (ps : List (List Char × ArticleMetadata)) :
    List (List Char × ArticleMetadata) :=
  ps.foldl (fun d p => dictInsert p.1 p.2 d) []

/-- Stable insertion into a list sorted by key length, longest first: the
new pair goes in front of the first pair whose key is not longer, so among
equal lengths an earlier-inserted pair stays earlier. -/
def insertByLenDesc (x : List Char × ArticleMetadata) :
    List (List Char × ArticleMetadata) → List (List Char × ArticleMetadata)
  | [] => [x]
  | y :: ys =>
    if x.1.length < y.1.length then y :: insertByLenDesc x ys else x :: y :: ys

/-- Model of list.sort with key = length and reverse = True (a stable
descending sort). -/
def sortByLenDesc : List (List Char × ArticleMetadata) → List (List Char × ArticleMetadata)
  | [] => []
  | x :: xs => insertByLenDesc x (sortByLenDesc xs)

/-- The lookup tables MetadataStore.__init__ builds: the literal-DOI dict,
the normalized-DOI-token dict, and the (normalized title, article) list
sorted by normalized-title length descending. -/
structure MetadataStore where
  by_doi : List (List Char × ArticleMetadata)
  doi_tokens : List (List Char × ArticleMetadata)
  title_tokens : List (List Char × ArticleMetadata)

/-- MetadataStore.__init__ from metadata_lookup.py. An article enters the
two DOI tables when its doi field is present and nonempty, and the title
table when its title is nonempty. -/
def mkMetadataStore (articles : List ArticleMetadata) : MetadataStore where
  by_doi := dictOfPairs (articles.filterMap (fun a =>
    match a.doi with
    | some d => if d ≠ [] then some (pyLower (stripWS d), a) else none
    | none => none))
  doi_tokens := dictOfPairs (articles.filterMap (fun a =>
    match a.doi with
    | some d => if d ≠ [] then some (normalizeForMatch d, a) else none
    | none => none))
  title_tokens := sortByLenDesc (articles.filterMap (fun a =>
    if a.title ≠ [] then some (normalizeForMatch a.title, a) else none))

/-- _match_doi_literal: the first article whose (nonempty) raw lowercase
DOI occurs in the lowered text. -/
def matchDoiLiteral : List (List Char × ArticleMetadata) → List Char → Option ArticleMetadata
  | [], _ => none
  | (k, a) :: rest, lowered =>
    if k ≠ [] ∧ containsSub k lowered = true then some a
    else matchDoiLiteral rest lowered

/-- _match_doi_token: the first article whose (nonempty) normalized DOI
token occurs in the normalized text. -/
def matchDoiToken : List (List Char × ArticleMetadata) → List Char → Option ArticleMetadata
  | [], _ => none
  | (k, a) :: rest, normalized =>
    if k ≠ [] ∧ containsSub k normalized = true then some a
    else matchDoiToken rest normalized

/-- The loop of _match_title: running best article and best score, where a
candidate replaces the best exactly when its score is strictly greater.
The 0.01 positional penalty is the rational 1 / 100. -/
def matchTitleGo (normalized : List Char) :
    List (List Char × ArticleMetadata) → Option (ArticleMetadata × ℚ) →
      Option (ArticleMetadata × ℚ)
  | [], best => best
  | (tok, a) :: rest, best =>
    if tok = [] then matchTitleGo normalized rest best
    else
      match firstOccur tok normalized with
      | none => matchTitleGo normalized rest best
      | some pos =>
        let score : ℚ := (tok.length : ℚ) - (1 / 100) * (pos : ℚ)
        match best with
        | none => matchTitleGo normalized rest (some (a, score))
        | some (b, bs) =>
          if bs < score then matchTitleGo normalized rest (some (a, score))
          else matchTitleGo normalized rest (some (b, bs))

/-- _match_title: the best-scoring title match, none when no title occurs. -/
def matchTitle (ts : List (List Char × ArticleMetadata)) (normalized : List Char) :
    Option ArticleMetadata :=
  (matchTitleGo normalized ts none).map Prod.fst

/-- MAX_TEXT_WINDOW from metadata_lookup.py. -/
def MAX_TEXT_WINDOW : ℕ := 20000

/-- _resolve_by_text: bound the scan window, then try the literal DOI
match, the DOI token match and the title match in that order. -/
def resolveByText (st : MetadataStore) (text : List Char) : Option ArticleMetadata :=
  if text = [] then none
  else
    let window := text.take MAX_TEXT_WINDOW
    let lowered := pyLower window
    match matchDoiLiteral st.by_doi lowered with
    | some a => some a
    | none =>
      let normalized := normalizeForMatch window
      match matchDoiToken st.doi_tokens normalized with
      | some a => some a
      | none => matchTitle st.title_tokens normalized

/-- resolve from metadata_lookup.py: the raised LookupError is modelled as
none. The document path argument only affects the error message and is
omitted. -/
def resolve (st : MetadataStore) (text : List Char) : Option ArticleMetadata :=
  resolveByText st text

lemma containsSub_nil {k : List Char} (h : k ≠ []) : containsSub k [] = false := by
  rw [containsSub, firstOccur]
  have : k.isPrefixOf ([] : List Char) = false := by
    cases k with
    | nil => exact absurd rfl h
    | cons c rest => rfl
  simp [this]

lemma matchDoiLiteral_nil : ∀ d : List (List Char × ArticleMetadata),
    matchDoiLiteral d [] = none := by
  intro d
  induction d with
  | nil => rfl
  | cons p rest ih =>
    obtain ⟨k, a⟩ := p
    rw [matchDoiLiteral]
    by_cases hk : k = []
    · rw [if_neg]; exact ih; simp [hk]
    · rw [if_neg]; exact ih
      intro hcon
      rw [containsSub_nil hk] at hcon
      exact Bool.false_ne_true hcon.2

lemma matchDoiToken_nil : ∀ d : List (List Char × ArticleMetadata),
    matchDoiToken d [] = none := by
  intro d
  induction d with
  | nil => rfl
  | cons p rest ih =>
    obtain ⟨k, a⟩ := p
    rw [matchDoiToken]
    by_cases hk : k = []
    · rw [if_neg]; exact ih; simp [hk]
    · rw [if_neg]; exact ih
      intro hcon
      rw [containsSub_nil hk] at hcon
      exact Bool.false_ne_true hcon.2

lemma resolveByText_ne_nil {st : MetadataStore} {text : List Char} (h : text ≠ []) :
    resolveByText st text =
      match matchDoiLiteral st.by_doi (pyLower (text.take MAX_TEXT_WINDOW)) with
      | some a => some a
      | none =>
        match matchDoiToken st.doi_tokens (normalizeForMatch (text.take MAX_TEXT_WINDOW)) with
        | some a => some a
        | none => matchTitle st.title_tokens (normalizeForMatch (text.take MAX_TEXT_WINDOW)) := by
  rw [resolveByText, if_neg h]

/-- C2: resolve examines only the first 20000 characters of the text and
applies the three strategies in strict priority order: the literal
lowercase DOI substring first, then the punctuation-stripped DOI token,
then title matching; in particular, with one candidate whose DOI
10.1/abc occurs literally in the text and another candidate whose title
also occurs, resolve returns the DOI candidate. -/
theorem C2_resolve_priority :
    (∀ (st : MetadataStore) (text : List Char),
      resolve st text = resolve st (text.take MAX_TEXT_WINDOW)) ∧
    (∀ (st : MetadataStore) (text : List Char) (a : ArticleMetadata),
      matchDoiLiteral st.by_doi (pyLower (text.take MAX_TEXT_WINDOW)) = some a →
      resolve st text = some a) ∧
    (∀ (st : MetadataStore) (text : List Char) (a : ArticleMetadata),
      matchDoiLiteral st.by_doi (pyLower (text.take MAX_TEXT_WINDOW)) = none →
      matchDoiToken st.doi_tokens (normalizeForMatch (text.take MAX_TEXT_WINDOW)) = some a →
      resolve st text = some a) ∧
    (∀ (st : MetadataStore) (text : List Char),
      text ≠ [] →
      matchDoiLiteral st.by_doi (pyLower (text.take MAX_TEXT_WINDOW)) = none →
      matchDoiToken st.doi_tokens (normalizeForMatch (text.take MAX_TEXT_WINDOW)) = none →
      resolve st text = matchTitle st.title_tokens
        (normalizeForMatch (text.take MAX_TEXT_WINDOW))) ∧
    (resolve
        (mkMetadataStore
          [⟨1, "resistance mechanisms in gram negative bacteria".toList,
              some "10.1/abc".toList⟩,
           ⟨2, "machine learning for protein folding".toList, none⟩])
        "machine learning for protein folding introduction doi 10.1/abc 2020".toList =
      some ⟨1, "resistance mechanisms in gram negative bacteria".toList,
        some "10.1/abc".toList⟩ ∧
      containsSub (normalizeForMatch "machine learning for protein folding".toList)
        (normalizeForMatch
          ("machine learning for protein folding introduction doi 10.1/abc 2020".toList.take
            MAX_TEXT_WINDOW)) = true) := by
  refine ⟨?_, ?_, ?_, ?_, ?_⟩
  · intro st text
    cases text with
    | nil => rfl
    | cons c rest =>
      have h1 : (c :: rest) ≠ [] := by simp
      have h2 : (c :: rest).take MAX_TEXT_WINDOW ≠ [] := by
        simp [MAX_TEXT_WINDOW]
      rw [resolve, resolve, resolveByText_ne_nil h1, resolveByText_ne_nil h2,
        List.take_take, min_self]
  · intro st text a h
    have hne : text ≠ [] := by
      intro hnil
      rw [hnil] at h
      simp only [List.take_nil, pyLower, List.map_nil, matchDoiLiteral_nil] at h
      exact Option.noConfusion h
    rw [resolve, resolveByText_ne_nil hne, h]
  · intro st text a hlit htok
    have hne : text ≠ [] := by
      intro hnil
      rw [hnil] at htok
      simp only [List.take_nil, normalizeForMatch, pyLower, List.map_nil,
        List.filter_nil, matchDoiToken_nil] at htok
      exact Option.noConfusion htok
    rw [resolve, resolveByText_ne_nil hne, hlit, htok]
  · intro st text hne hlit htok
    rw [resolve, resolveByText_ne_nil hne, hlit, htok]
  · constructor
    · decide
    · decide

/-- Witness for C2: the literal-DOI priority applied at a concrete store
and text. -/
theorem C2_resolve_priority_witness :
    resolve (mkMetadataStore [⟨5, "some unrelated title".toList, some "10.9/xyz".toList⟩])
      "as reported in 10.9/xyz recently".toList =
      some ⟨5, "some unrelated title".toList, some "10.9/xyz".toList⟩ :=
  C2_resolve_priority.2.1
    (mkMetadataStore [⟨5, "some unrelated title".toList, some "10.9/xyz".toList⟩])
    "as reported in 10.9/xyz recently".toList
    ⟨5, "some unrelated title".toList, some "10.9/xyz".toList⟩ (by decide)

/-- The title-match score of a candidate token against the normalized scan
window: token length minus 1 / 100 times the first-occurrence position;
none when the token is empty or does not occur (the loop skips such
entries). -/
def entryScore (w t : List Char) : Option ℚ :=
  if t = [] then none
  else (firstOccur t w).map (fun p : ℕ => (t.length : ℚ) - (1 / 100) * (p : ℚ))

lemma matchTitleGo_cons_skip (w tok : List Char) (a : ArticleMetadata)
    (rest : List (List Char × ArticleMetadata)) (best : Option (ArticleMetadata × ℚ))
    (h : entryScore w tok = none) :
    matchTitleGo w ((tok, a) :: rest) best = matchTitleGo w rest best := by
  rw [matchTitleGo]
  by_cases htok : tok = []
  · rw [if_pos htok]
  · rw [entryScore, if_neg htok] at h
    rw [if_neg htok]
    cases hocc : firstOccur tok w with
    | none => rfl
    | some pos => rw [hocc] at h; simp at h

lemma matchTitleGo_cons_score (w tok : List Char) (a : ArticleMetadata)
    (rest : List (List Char × ArticleMetadata)) (best : Option (ArticleMetadata × ℚ))
    (s0 : ℚ) (hsc : entryScore w tok = some s0) :
    matchTitleGo w ((tok, a) :: rest) best =
      matchTitleGo w rest
        (match best with
         | none => some (a, s0)
         | some (b, bs) => if bs < s0 then some (a, s0) else some (b, bs)) := by
  by_cases htok : tok = []
  · rw [entryScore, if_pos htok] at hsc; exact Option.noConfusion hsc
  · rw [entryScore, if_neg htok] at hsc
    rw [matchTitleGo, if_neg htok]
    cases hocc : firstOccur tok w with
    | none => rw [hocc] at hsc; simp at hsc
    | some pos =>
      rw [hocc] at hsc
      simp only [Option.map_some'] at hsc
      have hval : (tok.length : ℚ) - (1 / 100) * (pos : ℚ) = s0 := Option.some.inj hsc
      rw [← hval]
      cases best with
      | none => rfl
      | some bp =>
        obtain ⟨b, bs⟩ := bp
        rw [apply_ite (matchTitleGo w rest)]

lemma matchTitleGo_some (w : List Char) :
    ∀ (ts : List (List Char × ArticleMetadata)) (b : ArticleMetadata) (sb : ℚ),
      ∃ r sr, matchTitleGo w ts (some (b, sb)) = some (r, sr) ∧ sb ≤ sr ∧
        (∀ q ∈ ts, ∀ s, entryScore w q.1 = some s → s ≤ sr) ∧
        ((r = b ∧ sr = sb) ∨
          ∃ l1 t l2, ts = l1 ++ (t, r) :: l2 ∧ entryScore w t = some sr ∧ sb < sr ∧
            ∀ q ∈ l1, ∀ s, entryScore w q.1 = some s → s < sr) := by
  intro ts
  induction ts with
  | nil =>
    intro b sb
    exact ⟨b, sb, rfl, le_refl _, by simp, Or.inl ⟨rfl, rfl⟩⟩
  | cons p rest ih =>
    obtain ⟨tok, a⟩ := p
    intro b sb
    cases hes : entryScore w tok with
    | none =>
      obtain ⟨r, sr, hgo, hle, hbound, hdisj⟩ := ih b sb
      refine ⟨r, sr, ?_, hle, ?_, ?_⟩
      · rw [matchTitleGo_cons_skip w tok a rest _ hes]; exact hgo
      · intro q hq s hs
        rcases List.mem_cons.mp hq with rfl | hq2
        · rw [hes] at hs; exact Option.noConfusion hs
        · exact hbound q hq2 s hs
      · rcases hdisj with hsame | ⟨l1, t, l2, heq, hsc2, hlt2, hstrict⟩
        · exact Or.inl hsame
        · refine Or.inr ⟨(tok, a) :: l1, t, l2, by rw [heq]; rfl, hsc2, hlt2, ?_⟩
          intro q hq s hs
          rcases List.mem_cons.mp hq with rfl | hq2
          · rw [hes] at hs; exact Option.noConfusion hs
          · exact hstrict q hq2 s hs
    | some s0 =>
      by_cases hlt : sb < s0
      · obtain ⟨r, sr, hgo, hle, hbound, hdisj⟩ := ih a s0
        refine ⟨r, sr, ?_, le_of_lt (lt_of_lt_of_le hlt hle), ?_, ?_⟩
        · rw [matchTitleGo_cons_score w tok a rest _ s0 hes]
          simp only [if_pos hlt]
          exact hgo
        · intro q hq s hs
          rcases List.mem_cons.mp hq with rfl | hq2
          · rw [hes] at hs
            rw [← Option.some.inj hs]
            exact hle
          · exact hbound q hq2 s hs
        · rcases hdisj with ⟨hra, hsa⟩ | ⟨l1, t, l2, heq, hsc2, hlt2, hstrict⟩
          · refine Or.inr ⟨[], tok, rest, ?_, ?_, ?_, by simp⟩
            · rw [List.nil_append, hra]
            · rw [hes, hsa]
            · rw [hsa]; exact hlt
          · refine Or.inr ⟨(tok, a) :: l1, t, l2, by rw [heq]; rfl, hsc2, ?_, ?_⟩
            · exact lt_trans hlt hlt2
            · intro q hq s hs
              rcases List.mem_cons.mp hq with rfl | hq2
              · rw [hes] at hs
                rw [← Option.some.inj hs]
                exact hlt2
              · exact hstrict q hq2 s hs
      · obtain ⟨r, sr, hgo, hle, hbound, hdisj⟩ := ih b sb
        have hs0sb : s0 ≤ sb := le_of_not_lt hlt
        refine ⟨r, sr, ?_, hle, ?_, ?_⟩
        · rw [matchTitleGo_cons_score w tok a rest _ s0 hes]
          simp only [if_neg hlt]
          exact hgo
        · intro q hq s hs
          rcases List.mem_cons.mp hq with rfl | hq2
          · rw [hes] at hs
            rw [← Option.some.inj hs]
            exact le_trans hs0sb hle
          · exact hbound q hq2 s hs
        · rcases hdisj with hsame | ⟨l1, t, l2, heq, hsc2, hlt2, hstrict⟩
          · exact Or.inl hsame
          · refine Or.inr ⟨(tok, a) :: l1, t, l2, by rw [heq]; rfl, hsc2, hlt2, ?_⟩
            intro q hq s hs
            rcases List.mem_cons.mp hq with rfl | hq2
            · rw [hes] at hs
              rw [← Option.some.inj hs]
              exact lt_of_le_of_lt hs0sb hlt2
            · exact hstrict q hq2 s hs

lemma matchTitleGo_none (w : List Char) :
    ∀ ts : List (List Char × ArticleMetadata),
      (matchTitleGo w ts none = none ∧ ∀ q ∈ ts, entryScore w q.1 = none) ∨
      ∃ l1 t a l2 sr, ts = l1 ++ (t, a) :: l2 ∧
        matchTitleGo w ts none = some (a, sr) ∧ entryScore w t = some sr ∧
        (∀ q ∈ ts, ∀ s, entryScore w q.1 = some s → s ≤ sr) ∧
        (∀ q ∈ l1, ∀ s, entryScore w q.1 = some s → s < sr) := by
  intro ts
  induction ts with
  | nil => exact Or.inl ⟨rfl, by simp⟩
  | cons p rest ih =>
    obtain ⟨tok, a⟩ := p
    cases hes : entryScore w tok with
    | none =>
      rcases ih with ⟨hgo, hall⟩ | ⟨l1, t, a2, l2, sr, heq, hgo, hsc2, hbound, hstrict⟩
      · refine Or.inl ⟨?_, ?_⟩
        · rw [matchTitleGo_cons_skip w tok a rest _ hes]; exact hgo
        · intro q hq
          rcases List.mem_cons.mp hq with rfl | hq2
          · exact hes
          · exact hall q hq2
      · refine Or.inr ⟨(tok, a) :: l1, t, a2, l2, sr, by rw [heq]; rfl, ?_, hsc2, ?_, ?_⟩
        · rw [matchTitleGo_cons_skip w tok a rest _ hes]; exact hgo
        · intro q hq s hs
          rcases List.mem_cons.mp hq with rfl | hq2
          · rw [hes] at hs; exact Option.noConfusion hs
          · exact hbound q hq2 s hs
        · intro q hq s hs
          rcases List.mem_cons.mp hq with rfl | hq2
          · rw [hes] at hs; exact Option.noConfusion hs
          · exact hstrict q hq2 s hs
    | some s0 =>
      obtain ⟨r, sr, hgo, hle, hbound, hdisj⟩ := matchTitleGo_some w rest a s0
      have hstep : matchTitleGo w ((tok, a) :: rest) none = some (r, sr) := by
        rw [matchTitleGo_cons_score w tok a rest none s0 hes]
        exact hgo
      rcases hdisj with ⟨hra, hsa⟩ | ⟨l1, t, l2, heq, hsc2, hlt2, hstrict⟩
      · refine Or.inr ⟨[], tok, r, rest, sr, ?_, hstep, ?_, ?_, by simp⟩
        · rw [List.nil_append, hra]
        · rw [hes, hsa]
        · intro q hq s hs
          rcases List.mem_cons.mp hq with rfl | hq2
          · rw [hes] at hs
            rw [← Option.some.inj hs, hsa]
          · exact hbound q hq2 s hs
      · refine Or.inr ⟨(tok, a) :: l1, t, r, l2, sr, by rw [heq]; rfl, hstep, hsc2, ?_, ?_⟩
        · intro q hq s hs
          rcases List.mem_cons.mp hq with rfl | hq2
          · rw [hes] at hs
            rw [← Option.some.inj hs]
            exact le_of_lt hlt2
          · exact hbound q hq2 s hs
        · intro q hq s hs
          rcases List.mem_cons.mp hq with rfl | hq2
          · rw [hes] at hs
            rw [← Option.some.inj hs]
            exact hlt2
          · exact hstrict q hq2 s hs

/-- C6: when at least one candidate title (nonempty after normalization)
occurs in the scan window, _match_title returns the candidate achieving the
highest score, score = token length minus 1 / 100 times the position of the
first occurrence, and every candidate strictly earlier in the sorted list
has a strictly smaller score, so equal scores favor the earlier candidate. -/
theorem C6_title_best_match (st : MetadataStore) (w : List Char)
    (h : ∃ q ∈ st.title_tokens, q.1 ≠ [] ∧ (firstOccur q.1 w).isSome = true) :
    ∃ l1 t a l2 s, st.title_tokens = l1 ++ (t, a) :: l2 ∧
      matchTitle st.title_tokens w = some a ∧ entryScore w t = some s ∧
      (∀ q ∈ st.title_tokens, ∀ s2, entryScore w q.1 = some s2 → s2 ≤ s) ∧
      (∀ q ∈ l1, ∀ s2, entryScore w q.1 = some s2 → s2 < s) := by
  rcases matchTitleGo_none w st.title_tokens with ⟨_, hall⟩ |
    ⟨l1, t, a, l2, sr, heq, hgo, hsc, hbound, hstrict⟩
  · exfalso
    obtain ⟨q, hq, hne, hso⟩ := h
    have hnone := hall q hq
    rw [entryScore, if_neg hne] at hnone
    cases hocc : firstOccur q.1 w with
    | none => rw [hocc] at hso; exact Bool.false_ne_true hso
    | some pos => rw [hocc] at hnone; exact Option.noConfusion hnone
  · exact ⟨l1, t, a, l2, sr, heq, by rw [matchTitle, hgo]; rfl, hsc, hbound, hstrict⟩

/-- Witness for C6 at a concrete store of two titles and a window in which
both occur: the longer title "alpha beta gamma" wins. -/
theorem C6_title_best_match_witness :
    ∃ l1 t a l2 s,
      (mkMetadataStore [⟨1, "alpha beta gamma".toList, none⟩,
        ⟨2, "beta".toList, none⟩]).title_tokens = l1 ++ (t, a) :: l2 ∧
      matchTitle (mkMetadataStore [⟨1, "alpha beta gamma".toList, none⟩,
        ⟨2, "beta".toList, none⟩]).title_tokens "alphabetagamma".toList = some a ∧
      entryScore "alphabetagamma".toList t = some s ∧
      (∀ q ∈ (mkMetadataStore [⟨1, "alpha beta gamma".toList, none⟩,
        ⟨2, "beta".toList, none⟩]).title_tokens, ∀ s2,
        entryScore "alphabetagamma".toList q.1 = some s2 → s2 ≤ s) ∧
      (∀ q ∈ l1, ∀ s2, entryScore "alphabetagamma".toList q.1 = some s2 → s2 < s) :=
  C6_title_best_match
    (mkMetadataStore [⟨1, "alpha beta gamma".toList, none⟩, ⟨2, "beta".toList, none⟩])
    "alphabetagamma".toList (by decide)

/-! Embedding staleness tracking (pipeline/core/embed_chunks.py). -/

/-- A row of the text_chunks table, restricted to the columns
fetch_todo_chunks reads. -/
structure TextChunkRow where
  chunk_id : ℤ
  pmid : ℤ
  chunk_text : List Char
  content_hash : List Char
deriving DecidableEq

/-- A row of the chunk_embeddings table. The stored vector is modelled as a
list of rationals. -/
structure ChunkEmbeddingRow where
  chunk_id : ℤ
  pmid : ℤ
  model_name : List Char
  embedding_dim : ℕ
  embedding : List ℚ
  text_hash : List Char
deriving DecidableEq

/-- The ChunkRow dataclass fetch_todo_chunks returns. -/
structure ChunkRow where
  chunk_id : ℤ
  pmid : ℤ
  text : List Char
deriving DecidableEq

/-- The chunk_embeddings rows joined to a chunk by the LEFT JOIN condition:
same chunk_id and the requested model_name. -/
def matchingEmbeddings (embs : List ChunkEmbeddingRow) (model : List Char) (cid : ℤ) :
    List ChunkEmbeddingRow :=
  embs.filter (fun e => decide (e.chunk_id = cid ∧ e.model_name = model))

/-- One chunk's contribution to the LEFT JOIN of text_chunks with
chunk_embeddings followed by the WHERE clause: with no matching embedding
the chunk is kept (ce.chunk_id IS NULL); otherwise one joined row per
matching embedding, kept when the stored text_hash differs from
substring(content_hash FOR 16), the first 16 characters of the current
content hash. -/
def todoRowsFor (embs : List ChunkEmbeddingRow) (model : List Char) (c : TextChunkRow) :
    List ChunkRow :=
  match matchingEmbeddings embs model c.chunk_id with
  | [] => [⟨c.chunk_id, c.pmid, c.chunk_text⟩]
  | es => (es.filter (fun e => decide (e.text_hash ≠ c.content_hash.take 16))).map
      (fun _ => ⟨c.chunk_id, c.pmid, c.chunk_text⟩)

/-- The ORDER BY pmid, chunk_id comparison. -/
def chunkRowLE (a b : ChunkRow) : Bool :=
  decide (a.pmid < b.pmid ∨ (a.pmid = b.pmid ∧ a.chunk_id ≤ b.chunk_id))

/-- Stable insertion for the ORDER BY sort. -/
def insertChunkRow (x : ChunkRow) : List ChunkRow → List ChunkRow
  | [] => [x]
  | y :: ys => if chunkRowLE x y then x :: y :: ys else y :: insertChunkRow x ys

/-- Stable sort by (pmid, chunk_id). -/
def sortChunkRows : List ChunkRow → List ChunkRow
  | [] => []
  | x :: xs => insertChunkRow x (sortChunkRows xs)

/-- fetch_todo_chunks from embed_chunks.py: the chunks with no embedding
row for the requested model or with a stale stored text hash, ordered by
(pmid, chunk_id). -/
def fetch_todo_chunks (chunks : List TextChunkRow) (embs : List ChunkEmbeddingRow)
    (model : List Char) : List ChunkRow :=
  sortChunkRows (chunks.flatMap (todoRowsFor embs model))

/-- The staleness condition of the specification for a chunk under a
model: no embedding row exists for (chunk_id, model_name), or the stored
text_hash differs from the truncated (first 16 characters) form of the
current content hash. -/
def needsEmbedding (embs : List ChunkEmbeddingRow) (model : List Char)
    (c : TextChunkRow) : Prop :=
  (¬ ∃ e ∈ embs, e.chunk_id = c.chunk_id ∧ e.model_name = model) ∨
    (∃ e ∈ embs, e.chunk_id = c.chunk_id ∧ e.model_name = model ∧
      e.text_hash ≠ c.content_hash.take 16)

lemma insertChunkRow_perm (x : ChunkRow) :
    ∀ l, (insertChunkRow x l).Perm (x :: l) := by
  intro l
  induction l with
  | nil => exact List.Perm.refl _
  | cons y ys ih =>
    rw [insertChunkRow]
    by_cases hle : chunkRowLE x y
    · rw [if_pos hle]
    · rw [if_neg hle]
      exact List.Perm.trans (List.Perm.cons y ih) (List.Perm.swap x y ys)

lemma sortChunkRows_perm : ∀ l, (sortChunkRows l).Perm l := by
  intro l
  induction l with
  | nil => exact List.Perm.refl _
  | cons x xs ih =>
    exact List.Perm.trans (insertChunkRow_perm x (sortChunkRows xs)) (List.Perm.cons x ih)

lemma countP_flatMap {α : Type} (p : ChunkRow → Bool) (f : α → List ChunkRow) :
    ∀ l : List α, ((l.flatMap f).countP p) = (l.map (fun x => (f x).countP p)).sum := by
  intro l
  induction l with
  | nil => rfl
  | cons x xs ih => rw [List.flatMap_cons, List.countP_append, List.map_cons, List.sum_cons, ih]

lemma mem_matchingEmbeddings {embs : List ChunkEmbeddingRow} {model : List Char}
    {cid : ℤ} {e : ChunkEmbeddingRow} :
    e ∈ matchingEmbeddings embs model cid ↔
      e ∈ embs ∧ e.chunk_id = cid ∧ e.model_name = model := by
  rw [matchingEmbeddings, List.mem_filter]
  simp

lemma matchingEmbeddings_nil {embs : List ChunkEmbeddingRow} {model : List Char}
    {cid : ℤ} :
    matchingEmbeddings embs model cid = [] ↔
      ¬ ∃ e ∈ embs, e.chunk_id = cid ∧ e.model_name = model := by
  rw [matchingEmbeddings, List.filter_eq_nil_iff]
  simp

lemma matchingEmbeddings_cases (embs : List ChunkEmbeddingRow) (model : List Char)
    (cid : ℤ)
    (h : (embs.map (fun e => (e.chunk_id, e.model_name))).Nodup) :
    matchingEmbeddings embs model cid = [] ∨
      ∃ e, matchingEmbeddings embs model cid = [e] := by
  induction embs with
  | nil => exact Or.inl rfl
  | cons e rest ih =>
    rw [List.map_cons, List.nodup_cons] at h
    have hrest := ih h.2
    rw [matchingEmbeddings, List.filter_cons]
    by_cases hm : e.chunk_id = cid ∧ e.model_name = model
    · rw [if_pos (by simpa using hm)]
      have hnone : matchingEmbeddings rest model cid = [] := by
        rcases hrest with h0 | ⟨e2, he2⟩
        · exact h0
        · exfalso
          have hmem : e2 ∈ matchingEmbeddings rest model cid := by
            rw [he2]; exact List.mem_singleton_self e2
          rw [mem_matchingEmbeddings] at hmem
          apply h.1
          rw [List.mem_map]
          refine ⟨e2, hmem.1, ?_⟩
          rw [hmem.2.1, hmem.2.2, hm.1, hm.2]
      rw [matchingEmbeddings] at hnone
      rw [hnone]
      exact Or.inr ⟨e, rfl⟩
    · rw [if_neg (by simpa using hm)]
      exact hrest

lemma todoRowsFor_chunk_id {embs : List ChunkEmbeddingRow} {model : List Char}
    {c : TextChunkRow} {r : ChunkRow} (h : r ∈ todoRowsFor embs model c) :
    r.chunk_id = c.chunk_id := by
  rw [todoRowsFor] at h
  rcases hm : matchingEmbeddings embs model c.chunk_id with _ | ⟨e, es⟩
  · rw [hm] at h
    rw [List.mem_singleton.mp h]
  · rw [hm] at h
    obtain ⟨_, _, heq⟩ := List.mem_map.mp h
    rw [← heq]

lemma todoRowsFor_length_of_needs {embs : List ChunkEmbeddingRow} {model : List Char}
    {c : TextChunkRow}
    (hkeys : (embs.map (fun e => (e.chunk_id, e.model_name))).Nodup)
    (h : needsEmbedding embs model c) :
    (todoRowsFor embs model c).length = 1 := by
  rcases matchingEmbeddings_cases embs model c.chunk_id hkeys with h0 | ⟨e, he⟩
  · rw [todoRowsFor, h0]
    rfl
  · have hmem : e ∈ matchingEmbeddings embs model c.chunk_id := by
      rw [he]; exact List.mem_singleton_self e
    rw [mem_matchingEmbeddings] at hmem
    have hne : e.text_hash ≠ c.content_hash.take 16 := by
      rcases h with hnone | ⟨e2, he2mem, he2cid, he2model, he2hash⟩
      · exact absurd ⟨e, hmem.1, hmem.2.1, hmem.2.2⟩ hnone
      · have : e2 ∈ matchingEmbeddings embs model c.chunk_id :=
          mem_matchingEmbeddings.mpr ⟨he2mem, he2cid, he2model⟩
        rw [he, List.mem_singleton] at this
        rw [← this]
        exact he2hash
    rw [todoRowsFor, he]
    simp [hne]

lemma todoRowsFor_length_of_not_needs {embs : List ChunkEmbeddingRow} {model : List Char}
    {c : TextChunkRow}
    (h : ¬ needsEmbedding embs model c) :
    (todoRowsFor embs model c).length = 0 := by
  rw [needsEmbedding, not_or, not_not] at h
  obtain ⟨⟨e0, he0mem, he0cid, he0model⟩, hforall⟩ := h
  push_neg at hforall
  rcases hm : matchingEmbeddings embs model c.chunk_id with _ | ⟨e, es⟩
  · exfalso
    rw [matchingEmbeddings_nil] at hm
    exact hm ⟨e0, he0mem, he0cid, he0model⟩
  · rw [todoRowsFor, hm]
    rw [List.length_map, List.length_eq_zero, List.filter_eq_nil_iff]
    intro a ha
    have hamem : a ∈ matchingEmbeddings embs model c.chunk_id := by rw [hm]; exact ha
    rw [mem_matchingEmbeddings] at hamem
    have := hforall a hamem.1 hamem.2.1 hamem.2.2
    simp [this]

lemma fetch_countP (chunks : List TextChunkRow) (embs : List ChunkEmbeddingRow)
    (model : List Char) (c : TextChunkRow)
    (hchunks : (chunks.map TextChunkRow.chunk_id).Nodup)
    (hc : c ∈ chunks) :
    (fetch_todo_chunks chunks embs model).countP
        (fun r => decide (r.chunk_id = c.chunk_id)) =
      (todoRowsFor embs model c).length := by
  obtain ⟨l1, l2, rfl⟩ := List.append_of_mem hc
  rw [List.map_append, List.map_cons] at hchunks
  rw [List.nodup_append] at hchunks
  obtain ⟨hn1, hn2, hdisj⟩ := hchunks
  rw [List.nodup_cons] at hn2
  have hne1 : ∀ c2 ∈ l1, c2.chunk_id ≠ c.chunk_id := by
    intro c2 hc2 heq
    exact hdisj (List.mem_map_of_mem _ hc2) (by rw [heq]; exact List.mem_cons_self _ _)
  have hne2 : ∀ c2 ∈ l2, c2.chunk_id ≠ c.chunk_id := by
    intro c2 hc2 heq
    exact hn2.1 (by rw [← heq]; exact List.mem_map_of_mem _ hc2)
  rw [fetch_todo_chunks,
    (sortChunkRows_perm _).countP_eq, countP_flatMap, List.map_append, List.map_cons,
    List.sum_append, List.sum_cons]
  have hzero : ∀ (l : List TextChunkRow), (∀ c2 ∈ l, c2.chunk_id ≠ c.chunk_id) →
      (l.map (fun x => (todoRowsFor embs model x).countP
        (fun r => decide (r.chunk_id = c.chunk_id)))).sum = 0 := by
    intro l hl
    apply List.sum_eq_zero
    intro x hx
    obtain ⟨c2, hc2, rfl⟩ := List.mem_map.mp hx
    rw [List.countP_eq_zero]
    intro r hr
    simp only [decide_eq_true_eq]
    rw [todoRowsFor_chunk_id hr]
    exact hl c2 hc2
  rw [hzero l1 hne1, hzero l2 hne2]
  rw [List.countP_eq_length.mpr ?_]
  · omega
  · intro r hr
    simp only [decide_eq_true_eq]
    exact todoRowsFor_chunk_id hr

/-- C3: a chunk of the text_chunks table appears in the pending list of
fetch_todo_chunks if and only if either no embedding row exists for its
(chunk_id, model_name) or the stored text_hash differs from the first 16
characters of its current content hash; a stale chunk appears exactly
once. The hypotheses state the table key constraints: chunk ids are unique
and (chunk_id, model_name) is unique among embeddings. -/
theorem C3_pending_iff_stale (chunks : List TextChunkRow) (embs : List ChunkEmbeddingRow)
    (model : List Char) (c : TextChunkRow)
    (hchunks : (chunks.map TextChunkRow.chunk_id).Nodup)
    (hkeys : (embs.map (fun e => (e.chunk_id, e.model_name))).Nodup)
    (hc : c ∈ chunks) :
    ((∃ r ∈ fetch_todo_chunks chunks embs model, r.chunk_id = c.chunk_id) ↔
      needsEmbedding embs model c) ∧
    (needsEmbedding embs model c →
      (fetch_todo_chunks chunks embs model).countP
        (fun r => decide (r.chunk_id = c.chunk_id)) = 1) := by
  have hcount := fetch_countP chunks embs model c hchunks hc
  constructor
  · constructor
    · intro hex
      by_contra hnot
      have h0 := todoRowsFor_length_of_not_needs hnot
      rw [h0] at hcount
      have hpos : 0 < (fetch_todo_chunks chunks embs model).countP
          (fun r => decide (r.chunk_id = c.chunk_id)) := by
        rw [List.countP_pos_iff]
        obtain ⟨r, hr, hid⟩ := hex
        exact ⟨r, hr, by simpa using hid⟩
      omega
    · intro hneeds
      have h1 := todoRowsFor_length_of_needs hkeys hneeds
      rw [h1] at hcount
      have hpos : 0 < (fetch_todo_chunks chunks embs model).countP
          (fun r => decide (r.chunk_id = c.chunk_id)) := by omega
      rw [List.countP_pos_iff] at hpos
      obtain ⟨r, hr, hid⟩ := hpos
      exact ⟨r, hr, by simpa using hid⟩
  · intro hneeds
    rw [hcount, todoRowsFor_length_of_needs hkeys hneeds]

/-- Witness for C3: a single chunk whose stored fingerprint differs from
the truncated current hash appears exactly once in the pending list. -/
theorem C3_pending_iff_stale_witness :
    ((∃ r ∈ fetch_todo_chunks
        [⟨1, 10, "some chunk text".toList, "0123456789abcdef0123".toList⟩]
        [⟨1, 10, "model-a".toList, 2, [], "deadbeefdeadbeef".toList⟩]
        "model-a".toList, r.chunk_id = (1 : ℤ)) ↔
      needsEmbedding [⟨1, 10, "model-a".toList, 2, [], "deadbeefdeadbeef".toList⟩]
        "model-a".toList
        ⟨1, 10, "some chunk text".toList, "0123456789abcdef0123".toList⟩) ∧
    (needsEmbedding [⟨1, 10, "model-a".toList, 2, [], "deadbeefdeadbeef".toList⟩]
        "model-a".toList
        ⟨1, 10, "some chunk text".toList, "0123456789abcdef0123".toList⟩ →
      (fetch_todo_chunks
        [⟨1, 10, "some chunk text".toList, "0123456789abcdef0123".toList⟩]
        [⟨1, 10, "model-a".toList, 2, [], "deadbeefdeadbeef".toList⟩]
        "model-a".toList).countP (fun r => decide (r.chunk_id = (1 : ℤ))) = 1) :=
  C3_pending_iff_stale
    [⟨1, 10, "some chunk text".toList, "0123456789abcdef0123".toList⟩]
    [⟨1, 10, "model-a".toList, 2, [], "deadbeefdeadbeef".toList⟩]
    "model-a".toList
    ⟨1, 10, "some chunk text".toList, "0123456789abcdef0123".toList⟩
    (by decide) (by decide) (by decide)

/-- delete_embeddings from embed_chunks.py: when the table is nonempty and
some stored model differs from the current one, delete every row whose
model_name differs and report the number of deleted rows; otherwise leave
the table unchanged and report 0. Returns the resulting table and the
count. -/
def delete_embeddings (embs : List ChunkEmbeddingRow) (current : List Char) :
    List ChunkEmbeddingRow × ℕ :=
  if embs ≠ [] ∧ ∃ e ∈ embs, e.model_name ≠ current then
    (embs.filter (fun e => decide (e.model_name = current)),
     (embs.filter (fun e => decide (e.model_name ≠ current))).length)
  else (embs, 0)

/-- C9: delete_embeddings removes exactly the embedding rows whose model
differs from the current one, keeps every current-model row, and returns
the number of removed rows, which is 0 when the table is empty or holds
only current-model rows. -/
theorem C9_purge_other_models (embs : List ChunkEmbeddingRow) (current : List Char) :
    ((delete_embeddings embs current).1 =
      embs.filter (fun e => decide (e.model_name = current))) ∧
    ((delete_embeddings embs current).2 =
      (embs.filter (fun e => decide (e.model_name ≠ current))).length) ∧
    ((∀ e ∈ embs, e.model_name = current) →
      delete_embeddings embs current = (embs, 0)) := by
  by_cases h : embs ≠ [] ∧ ∃ e ∈ embs, e.model_name ≠ current
  · rw [delete_embeddings, if_pos h]
    refine ⟨rfl, rfl, ?_⟩
    intro hall
    obtain ⟨e, hmem, hne⟩ := h.2
    exact absurd (hall e hmem) hne
  · rw [delete_embeddings, if_neg h]
    rw [not_and_or, not_not] at h
    have hall : ∀ e ∈ embs, e.model_name = current := by
      rcases h with hnil | hno
      · intro e he; rw [hnil] at he; exact absurd he (List.not_mem_nil e)
      · push_neg at hno
        exact hno
    refine ⟨?_, ?_, fun _ => rfl⟩
    · have hfe : embs.filter (fun e => decide (e.model_name = current)) = embs := by
        rw [List.filter_eq_self]
        intro a ha
        simp [hall a ha]
      rw [hfe]
    · have hfn : embs.filter (fun e => decide (e.model_name ≠ current)) = [] := by
        rw [List.filter_eq_nil_iff]
        intro a ha
        simp [hall a ha]
      rw [hfn]
      rfl

/-- Witness for C9: a table holding only the current model is returned
unchanged with a deletion count of 0. -/
theorem C9_purge_other_models_witness :
    delete_embeddings [⟨1, 10, "model-a".toList, 2, [], "aaaa".toList⟩]
      "model-a".toList = ([⟨1, 10, "model-a".toList, 2, [], "aaaa".toList⟩], 0) :=
  (C9_purge_other_models [⟨1, 10, "model-a".toList, 2, [], "aaaa".toList⟩]
    "model-a".toList).2.2 (by decide)

/-! Index freshness (pipeline/core/index_builder.py, ensure_index_build). -/

/-- The metadata descriptor of the index artifacts, restricted to the two
fields ensure_index_build consults; they are optional because meta.get
returns None for a missing key. -/
structure IndexMeta where
  model_name : Option (List Char)
  metric : Option (List Char)
deriving DecidableEq

/-- The on-disk artifact state ensure_index_build probes: whether each of
the three artifact files (index, chunk-id array, metadata descriptor)
exists, and the parsed descriptor, meaningful when the metadata file
exists. -/
structure ArtifactState where
  indexExists : Bool
  idsExists : Bool
  metaExists : Bool
  meta : IndexMeta
deriving DecidableEq

/-- The metric build_index derives from the configuration: cosine when the
embeddings are normalized, euclidean otherwise. -/
def currentMetric (normalize : Bool) : List Char :=
  if normalize then "cosine".toList else "euclidean".toList

/-- ensure_index_build from index_builder.py, reduced to its rebuild
decision: any missing artifact forces a rebuild; otherwise the stored
descriptor is compared to the requested model and the derived metric. The
returned Bool is whether build_index is invoked. -/
def ensure_index_build (st : ArtifactState) (model_name : List Char)
    (normalize : Bool) : Bool :=
  if st.indexExists = false ∨ st.idsExists = false ∨ st.metaExists = false then true
  else if st.meta.model_name ≠ some model_name then true
  else if st.meta.metric ≠ some (currentMetric normalize) then true
  else false

/-- C4: the index freshness check triggers a rebuild exactly when one of
the three artifacts is missing, or the stored model name differs from the
requested model, or the stored metric differs from the metric derived from
the configuration; when all three artifacts exist and both fields match,
no rebuild is performed. -/
theorem C4_rebuild_iff (st : ArtifactState) (model_name : List Char) (normalize : Bool) :
    (ensure_index_build st model_name normalize = true ↔
      (st.indexExists = false ∨ st.idsExists = false ∨ st.metaExists = false ∨
        st.meta.model_name ≠ some model_name ∨
        st.meta.metric ≠ some (if normalize then "cosine".toList else "euclidean".toList))) ∧
    ((st.indexExists = true ∧ st.idsExists = true ∧ st.metaExists = true ∧
        st.meta.model_name = some model_name ∧
        st.meta.metric = some (if normalize then "cosine".toList else "euclidean".toList)) →
      ensure_index_build st model_name normalize = false) := by
  rw [ensure_index_build, currentMetric]
  constructor
  · split_ifs with h1 h2 h3 <;> simp_all <;> tauto
  · rintro ⟨hi, hd, hm, hmn, hmt⟩
    split_ifs with h1 h2 h3 <;> simp_all

/-- Witness for C4: with the three artifacts present and a matching
descriptor, no rebuild happens. -/
theorem C4_rebuild_iff_witness :
    ensure_index_build
      ⟨true, true, true, ⟨some "model-a".toList, some "cosine".toList⟩⟩
      "model-a".toList true = false :=
  (C4_rebuild_iff ⟨true, true, true, ⟨some "model-a".toList, some "cosine".toList⟩⟩
    "model-a".toList true).2 (by decide)

/-! Retrieval and query logging (pipeline/core/retriever.py). -/

/-- A row of the documents table, restricted to the columns
_fetch_chunk_metadata reads. -/
structure DocumentRow where
  doc_id : ℤ
  pmid : ℤ
  title : List Char
deriving DecidableEq

/-- The per-chunk metadata dict entry _fetch_chunk_metadata returns. -/
structure ChunkMeta where
  chunk_text : List Char
  pmid : ℤ
  doc_id : ℤ
  title : List Char
deriving DecidableEq

/-- _fetch_chunk_metadata as a lookup: the SQL join of text_chunks and
documents on pmid, keyed by chunk_id. The data model keeps one document
per pmid and one chunk per chunk_id, so the first matching rows are the
join result. -/
def fetch_chunk_metadata (chunks : List TextChunkRow) (docs : List DocumentRow)
    (cid : ℤ) : Option ChunkMeta :=
  match chunks.find? (fun c2 => decide (c2.chunk_id = cid)) with
  | none => none
  | some c2 =>
    (docs.find? (fun d => decide (d.pmid = c2.pmid))).map
      (fun d => ⟨c2.chunk_text, c2.pmid, d.doc_id, d.title⟩)

/-- One retrieved result dict of search_index. -/
structure SearchResult where
  chunk_id : ℤ
  score : ℚ
  chunk_text : List Char
  pmid : ℤ
  doc_id : ℤ
  title : List Char
deriving DecidableEq

/-- The result-building loop of search_index: walk the hits (chunk id and
score pairs, in index return order), skip a hit whose chunk id has no
metadata, and otherwise emit one result carrying the score. -/
def buildResults (meta : ℤ → Option ChunkMeta) : List (ℤ × ℚ) → List SearchResult
  | [] => []
  | (cid, s) :: rest =>
    match meta cid with
    | none => buildResults meta rest
    | some info =>
      ⟨cid, s, info.chunk_text, info.pmid, info.doc_id, info.title⟩ ::
        buildResults meta rest

/-- A row of the query_logs table. -/
structure QueryLogRow where
  query_id : ℤ
  query_text : List Char
  response_text : Option (List Char)
  user_id : Option ℤ
deriving DecidableEq

/-- A row of the retrieves table. -/
structure RetrieveRow where
  query_id : ℤ
  doc_id : ℤ
deriving DecidableEq

/-- The log-side state _log_query writes: the two tables and the next
query_logs serial value (RETURNING query_id yields it). -/
structure QueryDB where
  query_logs : List QueryLogRow
  retrieves : List RetrieveRow
  next_query_id : ℤ
deriving DecidableEq

/-- Modelled from the spec: the DDL of the retrieves table is not among
the repository sources, only the INSERT ... ON CONFLICT DO NOTHING that
targets it; the spec states the per-query set of source doc_ids is
deduplicated, so the conflict target is modelled as a uniqueness
constraint over (query_id, doc_id) and the insert skips a pair already
present. -/
def insertRetrieve (tbl : List RetrieveRow) (qid did : ℤ) : List RetrieveRow :=
  if (⟨qid, did⟩ : RetrieveRow) ∈ tbl then tbl else tbl ++ [⟨qid, did⟩]

/-- The per-result insert loop of _log_query. -/
def insertRetrieves (tbl : List RetrieveRow) (qid : ℤ) : List ℤ → List RetrieveRow
  | [] => tbl
  | d :: ds => insertRetrieves (insertRetrieve tbl qid d) qid ds

/-- _log_query from retriever.py: insert one query_logs row, obtaining the
fresh query_id, then insert one retrieves row per result document. -/
def log_query (db : QueryDB) (query_text : List Char) (results : List SearchResult)
    (response_text : Option (List Char)) (user_id : Option ℤ) : QueryDB × ℤ :=
  let qid := db.next_query_id
  ({ query_logs := db.query_logs ++ [⟨qid, query_text, response_text, user_id⟩],
     retrieves := insertRetrieves db.retrieves qid (results.map SearchResult.doc_id),
     next_query_id := qid + 1 }, qid)

/-- search_index from retriever.py, from the point where the index search
has returned its hits: build the ordered results, optionally generate an
answer over them, and log the query exactly when at least one result was
built. Returns the results, the answer, the query id and the log state. -/
def search_index (db : QueryDB) (chunks : List TextChunkRow) (docs : List DocumentRow)
    (hits : List (ℤ × ℚ)) (query_text : List Char)
    (genAnswer : Option (List SearchResult → Option (List Char)))
    (user_id : Option ℤ) :
    List SearchResult × Option (List Char) × Option ℤ × QueryDB :=
  let ordered_results := buildResults (fetch_chunk_metadata chunks docs) hits
  let answer : Option (List Char) :=
    match genAnswer with
    | none => none
    | some g => g ordered_results
  if ordered_results = [] then (ordered_results, answer, none, db)
  else
    let p := log_query db query_text ordered_results answer user_id
    (ordered_results, answer, some p.2, p.1)

lemma buildResults_append (meta : ℤ → Option ChunkMeta) :
    ∀ l1 l2 : List (ℤ × ℚ),
      buildResults meta (l1 ++ l2) = buildResults meta l1 ++ buildResults meta l2 := by
  intro l1 l2
  induction l1 with
  | nil => rfl
  | cons p rest ih =>
    obtain ⟨cid, s⟩ := p
    rw [List.cons_append, buildResults, buildResults]
    cases meta cid with
    | none => exact ih
    | some info => rw [ih]; rfl

/-- C10: an index hit whose chunk id has no metadata row is silently
omitted from the ordered results; the projection of the results to
(chunk id, score) pairs is a sublist of the hits, so the surviving results
keep the index order, each paired with the score of its hit; the result
list can therefore be shorter than the hit list, and every surviving
result carries the metadata of its chunk. -/
theorem C10_missing_metadata_omitted (chunks : List TextChunkRow)
    (docs : List DocumentRow) (hits : List (ℤ × ℚ)) :
    (List.Sublist
      ((buildResults (fetch_chunk_metadata chunks docs) hits).map
        (fun r => (r.chunk_id, r.score))) hits) ∧
    ((buildResults (fetch_chunk_metadata chunks docs) hits).length ≤ hits.length) ∧
    (∀ (pre post : List (ℤ × ℚ)) (cid : ℤ) (s : ℚ),
      hits = pre ++ (cid, s) :: post →
      fetch_chunk_metadata chunks docs cid = none →
      buildResults (fetch_chunk_metadata chunks docs) hits =
        buildResults (fetch_chunk_metadata chunks docs) pre ++
          buildResults (fetch_chunk_metadata chunks docs) post) ∧
    (∀ r ∈ buildResults (fetch_chunk_metadata chunks docs) hits,
      ∃ m, fetch_chunk_metadata chunks docs r.chunk_id = some m ∧
        r.chunk_text = m.chunk_text ∧ r.pmid = m.pmid ∧ r.doc_id = m.doc_id ∧
        r.title = m.title) := by
  have hsub : List.Sublist
      ((buildResults (fetch_chunk_metadata chunks docs) hits).map
        (fun r => (r.chunk_id, r.score))) hits := by
    induction hits with
    | nil => exact List.Sublist.refl _
    | cons p rest ih =>
      obtain ⟨cid, s⟩ := p
      rw [buildResults]
      cases hmeta : fetch_chunk_metadata chunks docs cid with
      | none => exact List.Sublist.cons _ ih
      | some info => exact List.Sublist.cons₂ _ ih
  have hcarry : ∀ (l : List (ℤ × ℚ)),
      ∀ r ∈ buildResults (fetch_chunk_metadata chunks docs) l,
      ∃ m, fetch_chunk_metadata chunks docs r.chunk_id = some m ∧
        r.chunk_text = m.chunk_text ∧ r.pmid = m.pmid ∧ r.doc_id = m.doc_id ∧
        r.title = m.title := by
    intro l
    induction l with
    | nil => intro r hr; exact absurd hr (List.not_mem_nil r)
    | cons p rest ih =>
      obtain ⟨cid, s⟩ := p
      intro r hr
      rw [buildResults] at hr
      cases hmeta : fetch_chunk_metadata chunks docs cid with
      | none =>
        rw [hmeta] at hr
        exact ih r hr
      | some info =>
        rw [hmeta] at hr
        rcases List.mem_cons.mp hr with rfl | hr2
        · exact ⟨info, hmeta, rfl, rfl, rfl, rfl⟩
        · exact ih r hr2
  refine ⟨hsub, ?_, ?_, hcarry hits⟩
  · have := List.Sublist.length_le hsub
    rw [List.length_map] at this
    exact this
  · intro pre post cid s hsplit hnone
    rw [hsplit, buildResults_append, buildResults, hnone]

/-- Witness for C10: a hit against an empty store is dropped. -/
theorem C10_missing_metadata_omitted_witness :
    buildResults (fetch_chunk_metadata [] []) [((1 : ℤ), (0 : ℚ))] =
      buildResults (fetch_chunk_metadata [] []) [] ++
        buildResults (fetch_chunk_metadata [] []) [] :=
  (C10_missing_metadata_omitted [] [] [((1 : ℤ), (0 : ℚ))]).2.2.1 [] [] 1 0 rfl rfl

lemma mem_insertRetrieve {tbl : List RetrieveRow} {qid did : ℤ} {r : RetrieveRow} :
    r ∈ insertRetrieve tbl qid did ↔ r ∈ tbl ∨ r = ⟨qid, did⟩ := by
  rw [insertRetrieve]
  by_cases h : (⟨qid, did⟩ : RetrieveRow) ∈ tbl
  · rw [if_pos h]
    constructor
    · exact Or.inl
    · rintro (hr | rfl)
      · exact hr
      · exact h
  · rw [if_neg h]
    simp [List.mem_append]

lemma insertRetrieves_mem (qid : ℤ) :
    ∀ (ds : List ℤ) (tbl : List RetrieveRow) (r : RetrieveRow),
      r ∈ insertRetrieves tbl qid ds ↔
        r ∈ tbl ∨ (r.query_id = qid ∧ r.doc_id ∈ ds) := by
  intro ds
  induction ds with
  | nil => intro tbl r; simp [insertRetrieves]
  | cons d rest ih =>
    intro tbl r
    rw [insertRetrieves, ih, mem_insertRetrieve]
    constructor
    · rintro ((hr | rfl) | ⟨hq, hd⟩)
      · exact Or.inl hr
      · exact Or.inr ⟨rfl, List.mem_cons_self _ _⟩
      · exact Or.inr ⟨hq, List.mem_cons_of_mem _ hd⟩
    · rintro (hr | ⟨hq, hd⟩)
      · exact Or.inl (Or.inl hr)
      · rcases List.mem_cons.mp hd with hd1 | hd2
        · refine Or.inl (Or.inr ?_)
          cases r
          simp_all
        · exact Or.inr ⟨hq, hd2⟩

lemma insertRetrieves_nodup (qid : ℤ) :
    ∀ (ds : List ℤ) (tbl : List RetrieveRow),
      ((tbl.filter (fun r => decide (r.query_id = qid))).map RetrieveRow.doc_id).Nodup →
      (((insertRetrieves tbl qid ds).filter
          (fun r => decide (r.query_id = qid))).map RetrieveRow.doc_id).Nodup := by
  intro ds
  induction ds with
  | nil => intro tbl h; exact h
  | cons d rest ih =>
    intro tbl h
    rw [insertRetrieves]
    apply ih
    rw [insertRetrieve]
    by_cases hmem : (⟨qid, d⟩ : RetrieveRow) ∈ tbl
    · rw [if_pos hmem]; exact h
    · rw [if_neg hmem, List.filter_append, List.map_append]
      have hf : List.filter (fun r => decide (r.query_id = qid))
          [(⟨qid, d⟩ : RetrieveRow)] = [(⟨qid, d⟩ : RetrieveRow)] := by simp
      rw [hf]
      rw [List.nodup_append]
      refine ⟨h, List.nodup_singleton d, ?_⟩
      intro a ha hb
      have had : a = d := by
        simp only [List.map_cons, List.map_nil, List.mem_singleton] at hb
        exact hb
      obtain ⟨r, hrf, hrd⟩ := List.mem_map.mp ha
      rw [List.mem_filter] at hrf
      apply hmem
      have hq : r.query_id = qid := by simpa using hrf.2
      have hdd : r.doc_id = d := by rw [hrd, had]
      have : r = (⟨qid, d⟩ : RetrieveRow) := by
        cases r
        simp_all
      rw [← this]
      exact hrf.1

/-- C5: when at least one chunk result was built, exactly one query log
entry is created, recording the query text, the answer or its absence, the
user and the deduplicated set of source doc ids, and the returned query id
is the fresh one; with zero results no log entry is created and the
returned query id is none. The freshness hypothesis states that the
RETURNING serial value is new to the retrieves table. -/
theorem C5_query_logging (db : QueryDB) (chunks : List TextChunkRow)
    (docs : List DocumentRow) (hits : List (ℤ × ℚ)) (query_text : List Char)
    (genAnswer : Option (List SearchResult → Option (List Char)))
    (user_id : Option ℤ) :
    (buildResults (fetch_chunk_metadata chunks docs) hits = [] →
      (search_index db chunks docs hits query_text genAnswer user_id).2.2.1 = none ∧
      (search_index db chunks docs hits query_text genAnswer user_id).2.2.2 = db) ∧
    (buildResults (fetch_chunk_metadata chunks docs) hits ≠ [] →
      (search_index db chunks docs hits query_text genAnswer user_id).2.2.1 =
        some db.next_query_id ∧
      (search_index db chunks docs hits query_text genAnswer user_id).2.2.2.query_logs =
        db.query_logs ++
          [⟨db.next_query_id, query_text,
            (search_index db chunks docs hits query_text genAnswer user_id).2.1,
            user_id⟩] ∧
      (∀ d : ℤ, (⟨db.next_query_id, d⟩ : RetrieveRow) ∈
          (search_index db chunks docs hits query_text genAnswer user_id).2.2.2.retrieves ↔
        ((⟨db.next_query_id, d⟩ : RetrieveRow) ∈ db.retrieves ∨
          d ∈ (buildResults (fetch_chunk_metadata chunks docs) hits).map
            SearchResult.doc_id)) ∧
      ((∀ r ∈ db.retrieves, r.query_id ≠ db.next_query_id) →
        ((((search_index db chunks docs hits query_text genAnswer
            user_id).2.2.2.retrieves.filter
              (fun r => decide (r.query_id = db.next_query_id))).map
          RetrieveRow.doc_id).Nodup))) := by
  constructor
  · intro h
    rw [search_index.eq_def]
    simp [h]
  · intro h
    have hstep : search_index db chunks docs hits query_text genAnswer user_id =
        (buildResults (fetch_chunk_metadata chunks docs) hits,
         (match genAnswer with
          | none => none
          | some g => g (buildResults (fetch_chunk_metadata chunks docs) hits)),
         some db.next_query_id,
         { query_logs := db.query_logs ++
             [⟨db.next_query_id, query_text,
               (match genAnswer with
                | none => none
                | some g => g (buildResults (fetch_chunk_metadata chunks docs) hits)),
               user_id⟩],
           retrieves := insertRetrieves db.retrieves db.next_query_id
             ((buildResults (fetch_chunk_metadata chunks docs) hits).map
               SearchResult.doc_id),
           next_query_id := db.next_query_id + 1 }) := by
      rw [search_index.eq_def]
      simp only [h, if_neg]
      rfl
    rw [hstep]
    refine ⟨rfl, rfl, ?_, ?_⟩
    · intro d
      rw [insertRetrieves_mem]
      simp
    · intro hfresh
      apply insertRetrieves_nodup
      have hnil : db.retrieves.filter
          (fun r => decide (r.query_id = db.next_query_id)) = [] := by
        rw [List.filter_eq_nil_iff]
        intro a ha
        simp [hfresh a ha]
      rw [hnil]
      exact List.nodup_nil

/-- Witness for C5 at a concrete log state and a single surviving hit: a
log entry is produced with the fresh query id. -/
theorem C5_query_logging_witness :
    (search_index ⟨[], [], 41⟩ [⟨1, 10, "chunk text".toList, "hash".toList⟩]
        [⟨7, 10, "doc title".toList⟩] [((1 : ℤ), (0 : ℚ))] "why".toList none
        none).2.2.1 = some 41 ∧
    (search_index ⟨[], [], 41⟩ [⟨1, 10, "chunk text".toList, "hash".toList⟩]
        [⟨7, 10, "doc title".toList⟩] [((1 : ℤ), (0 : ℚ))] "why".toList none
        none).2.2.2.query_logs =
      [] ++ [⟨41, "why".toList,
        (search_index ⟨[], [], 41⟩ [⟨1, 10, "chunk text".toList, "hash".toList⟩]
          [⟨7, 10, "doc title".toList⟩] [((1 : ℤ), (0 : ℚ))] "why".toList none
          none).2.1, none⟩] := by
  have h := (C5_query_logging ⟨[], [], 41⟩
    [⟨1, 10, "chunk text".toList, "hash".toList⟩] [⟨7, 10, "doc title".toList⟩]
    [((1 : ℤ), (0 : ℚ))] "why".toList none none).2 (by decide)
  exact ⟨h.1, h.2.1⟩

end PubMed
